import Mathlib

/-
  Verification of the intrusive circular doubly-linked list primitive of the
  pcc test corpus.  Two source variants are embedded:

  * `Complete` — src/test_files/test-kernel-complete.c: INIT_LIST_HEAD,
    list_add, list_add_tail, list_del (no poisoning), list_empty,
    list_for_each, list_for_each_safe, container_of.
  * `Full` — src/test-kernel-full.c: __list_add, list_add, list_add_tail,
    __list_del, list_del (NULL-poisoning), remove_item.

  Links live in a heap mapping addresses (Nat) to a pair of pointer fields.
  Address 0 plays the role of the C null pointer for the `Full` variant,
  whose operations are partial (they fail on a null dereference).
-/

namespace Pcc

/-- A `struct list_head`: two pointer fields, addresses modelled as `Nat`. -/
structure Link where
  next : Nat
  prev : Nat
deriving DecidableEq, Repr

/-- The heap of link nodes: every address holds a `Link`. -/
def Heap : Type := Nat → Link

/-- The store `a->next = v`. -/
def writeNext (σ : Heap) (a v : Nat) : Heap :=
  fun x => if x = a then Link.mk v (σ a).prev else σ x

/-- The store `a->prev = v`. -/
def writePrev (σ : Heap) (a v : Nat) : Heap :=
  fun x => if x = a then Link.mk (σ a).next v else σ x

theorem writeNext_prev (σ : Heap) (a v x : Nat) :
    (writeNext σ a v x).prev = (σ x).prev := by
  unfold writeNext
  split
  case isTrue h => rw [h]
  case isFalse h => rfl

theorem writePrev_next (σ : Heap) (a v x : Nat) :
    (writePrev σ a v x).next = (σ x).next := by
  unfold writePrev
  split
  case isTrue h => rw [h]
  case isFalse h => rfl

theorem writeNext_next (σ : Heap) (a v x : Nat) :
    (writeNext σ a v x).next = if x = a then v else (σ x).next := by
  unfold writeNext
  split <;> rfl

theorem writePrev_prev (σ : Heap) (a v x : Nat) :
    (writePrev σ a v x).prev = if x = a then v else (σ x).prev := by
  unfold writePrev
  split <;> rfl

namespace Complete

/-- `INIT_LIST_HEAD(list)`: `list->next = list; list->prev = list;`. -/
def INIT_LIST_HEAD (σ : Heap) (l : Nat) : Heap :=
  writePrev (writeNext σ l l) l l

/-- `list_add(new, head)` of test-kernel-complete.c:
`head->next->prev = new; new->next = head->next; new->prev = head;
head->next = new;` — each statement reads the heap produced by the
previous one. -/
def list_add (σ : Heap) (nw h : Nat) : Heap :=
  let σ1 := writePrev σ (σ h).next nw
  let σ2 := writeNext σ1 nw (σ1 h).next
  let σ3 := writePrev σ2 nw h
  writeNext σ3 h nw

/-- `list_add_tail(new, head)` of test-kernel-complete.c:
`head->prev->next = new; new->next = head; new->prev = head->prev;
head->prev = new;`. -/
def list_add_tail (σ : Heap) (nw h : Nat) : Heap :=
  let σ1 := writeNext σ (σ h).prev nw
  let σ2 := writeNext σ1 nw h
  let σ3 := writePrev σ2 nw (σ2 h).prev
  writePrev σ3 h nw

/-- `list_del(entry)` of test-kernel-complete.c:
`entry->prev->next = entry->next; entry->next->prev = entry->prev;` —
the entry itself is not rewritten. -/
def list_del (σ : Heap) (e : Nat) : Heap :=
  let σ1 := writeNext σ (σ e).prev (σ e).next
  writePrev σ1 (σ1 e).next (σ1 e).prev

/-- `list_empty(head)`: `head->next == head`. -/
def list_empty (σ : Heap) (h : Nat) : Bool :=
  (σ h).next == h

theorem list_add_next (σ : Heap) (nw h x : Nat) :
    (list_add σ nw h x).next =
      if x = h then nw else if x = nw then (σ h).next else (σ x).next := by
  simp [list_add, writeNext_next, writePrev_next]

theorem list_add_prev (σ : Heap) (nw h x : Nat) :
    (list_add σ nw h x).prev =
      if x = nw then h else if x = (σ h).next then nw else (σ x).prev := by
  simp [list_add, writeNext_prev, writePrev_prev]

theorem list_add_tail_next (σ : Heap) (nw h x : Nat) :
    (list_add_tail σ nw h x).next =
      if x = nw then h else if x = (σ h).prev then nw else (σ x).next := by
  simp [list_add_tail, writeNext_next, writePrev_next]

theorem list_add_tail_prev (σ : Heap) (nw h x : Nat) :
    (list_add_tail σ nw h x).prev =
      if x = h then nw else if x = nw then (σ h).prev else (σ x).prev := by
  simp [list_add_tail, writeNext_prev, writePrev_prev]

theorem list_del_next (σ : Heap) (e x : Nat) :
    (list_del σ e x).next =
      if x = (σ e).prev then (σ e).next else (σ x).next := by
  simp [list_del, writeNext_next, writePrev_next]

theorem list_del_prev (σ : Heap) (e x : Nat) :
    (list_del σ e x).prev =
      if x = (σ e).next then (σ e).prev else (σ x).prev := by
  simp [list_del, writeNext_next, writeNext_prev, writePrev_prev]

end Complete

/-- `chain σ a l b` : starting at `a`, the `next` pointers pass exactly
through the elements of `l` and reach `b`, and every such step is mirrored
by the corresponding `prev` pointer. -/
def chain (σ : Heap) : Nat → List Nat → Nat → Prop
  | a, [], b => (σ a).next = b ∧ (σ b).prev = a
  | a, x :: l, b => (σ a).next = x ∧ (σ x).prev = a ∧ chain σ x l b

theorem chain_nil (σ : Heap) (a b : Nat) :
    chain σ a [] b ↔ (σ a).next = b ∧ (σ b).prev = a := Iff.rfl

theorem chain_cons (σ : Heap) (a x b : Nat) (l : List Nat) :
    chain σ a (x :: l) b ↔
      (σ a).next = x ∧ (σ x).prev = a ∧ chain σ x l b := Iff.rfl

/-- A chain only constrains the `next` fields of `a :: l` and the `prev`
fields of `l ++ [b]`; any heap agreeing there carries the same chain. -/
theorem chain_frame {σ σ' : Heap} {a b : Nat} {l : List Nat}
    (hn : ∀ y ∈ a :: l, (σ' y).next = (σ y).next)
    (hp : ∀ y ∈ l ++ [b], (σ' y).prev = (σ y).prev)
    (hc : chain σ a l b) : chain σ' a l b := by
  induction l generalizing a with
  | nil =>
    exact ⟨(hn a (by simp)).trans hc.1, (hp b (by simp)).trans hc.2⟩
  | cons y l ih =>
    refine ⟨(hn a (by simp)).trans hc.1, (hp y (by simp)).trans hc.2.1, ?_⟩
    exact ih (fun z hz => hn z (by simpa using Or.inr (by simpa using hz)))
      (fun z hz => hp z (by simp only [List.cons_append, List.mem_cons]; exact Or.inr hz))
      hc.2.2

theorem chain_snoc {σ : Heap} {a b x : Nat} {l : List Nat} :
    chain σ a (l ++ [x]) b ↔
      chain σ a l x ∧ (σ x).next = b ∧ (σ b).prev = x := by
  induction l generalizing a with
  | nil => simp [chain]; tauto
  | cons y l ih => simp [chain, ih]; tauto

theorem chain_append {σ : Heap} {a b x : Nat} {l₁ l₂ : List Nat} :
    chain σ a (l₁ ++ x :: l₂) b ↔ chain σ a l₁ x ∧ chain σ x l₂ b := by
  induction l₁ generalizing a with
  | nil => simp [chain]; tauto
  | cons y l₁ ih => simp [chain, ih]; tauto

theorem chain_next_head {σ : Heap} {a b : Nat} {l : List Nat}
    (h : chain σ a l b) : (σ a).next = l.headD b := by
  cases l with
  | nil => exact h.1
  | cons y l => simpa using h.1

theorem chain_prev_last {σ : Heap} {a b : Nat} {l : List Nat}
    (h : chain σ a l b) : (σ b).prev = l.getLastD a := by
  induction l generalizing a with
  | nil => exact h.2
  | cons y l ih =>
    rw [List.getLastD_cons]
    exact ih h.2.2

theorem chain_mem_next {σ : Heap} {a b x : Nat} {l : List Nat}
    (h : chain σ a l b) (hx : x ∈ a :: l) : (σ x).next ∈ l ++ [b] := by
  induction l generalizing a with
  | nil =>
    simp only [List.mem_singleton] at hx
    subst hx
    simp [h.1]
  | cons y l ih =>
    rcases List.mem_cons.1 hx with h1 | h2
    · subst h1
      simp [h.1]
    · simpa using Or.inr (by simpa using ih h.2.2 h2)

theorem chain_fwd_closure {σ : Heap} {a b x : Nat} {l : List Nat}
    (h : chain σ a l b) (hx : x ∈ a :: l) : (σ (σ x).next).prev = x := by
  induction l generalizing a with
  | nil =>
    simp only [List.mem_singleton] at hx
    subst hx
    rw [h.1]
    exact h.2
  | cons y l ih =>
    rcases List.mem_cons.1 hx with h1 | h2
    · subst h1
      rw [h.1]
      exact h.2.1
    · exact ih h.2.2 h2

theorem chain_bwd_closure {σ : Heap} {a b x : Nat} {l : List Nat}
    (h : chain σ a l b) (hx : x ∈ l ++ [b]) : (σ (σ x).prev).next = x := by
  induction l generalizing a with
  | nil =>
    simp only [List.nil_append, List.mem_singleton] at hx
    subst hx
    rw [h.2]
    exact h.1
  | cons y l ih =>
    have hx' : x = y ∨ x ∈ l ++ [b] := by
      rcases (by simpa using hx : x = y ∨ x ∈ l ∨ x = b) with h1 | h2 | h3
      · exact Or.inl h1
      · exact Or.inr (by simp [h2])
      · exact Or.inr (by simp [h3])
    rcases hx' with h1 | h2
    · subst h1
      rw [h.2.1]
      exact h.1
    · exact ih h.2.2 h2

/-- `represents σ s l` : the sentinel `s` anchors a well-formed ring whose
members, in forward order, are exactly `l`. -/
def represents (σ : Heap) (s : Nat) (l : List Nat) : Prop :=
  (s :: l).Nodup ∧ chain σ s l s

/-- A chain whose final pointer pair is redirected from `x` to `c`,
everything else untouched, is again a chain ending at `c`. -/
theorem chain_retarget {σ σ' : Heap} {s c x : Nat} {l : List Nat}
    (hc : chain σ s l x)
    (hnodup : (s :: l).Nodup)
    (hn : ∀ y ∈ s :: l, y ≠ l.getLastD s → (σ' y).next = (σ y).next)
    (hp : ∀ y ∈ l, (σ' y).prev = (σ y).prev)
    (hlast : (σ' (l.getLastD s)).next = c)
    (hcp : (σ' c).prev = l.getLastD s) :
    chain σ' s l c := by
  rcases List.eq_nil_or_concat l with rfl | ⟨l₀, t, hlt⟩
  · exact ⟨hlast, hcp⟩
  · subst hlt
    simp only [List.concat_eq_append] at hc hnodup hn hp hlast hcp ⊢
    have hgl : (l₀ ++ [t]).getLastD s = t := List.getLastD_concat _ _ _
    rw [hgl] at hn hlast hcp
    have h0 := chain_snoc.1 hc
    have hts : t ≠ s ∧ t ∉ l₀ := by
      rw [List.nodup_cons, List.nodup_append] at hnodup
      constructor
      · intro hts
        exact hnodup.1 (by simp [hts.symm])
      · intro htl
        exact (hnodup.2.2.2 htl) (by simp)
    refine chain_snoc.2 ⟨?_, hlast, hcp⟩
    refine chain_frame ?_ ?_ h0.1
    · intro y hy
      refine hn y ?_ ?_
      · rcases List.mem_cons.1 hy with h1 | h1
        · simp [h1]
        · simp [h1]
      · intro h1
        rcases List.mem_cons.1 hy with h2 | h2
        · exact hts.1 (h1 ▸ h2)
        · exact hts.2 (h1 ▸ h2)
    · intro y hy
      exact hp y hy

/-- A chain whose entry pointer pair is redirected to start from `x`,
everything else untouched, is again a chain starting at `x`. -/
theorem chain_rehead {σ σ' : Heap} {s b x : Nat} {l : List Nat}
    (hc : chain σ s l b)
    (hbl : b ∉ l) (hl : l.Nodup)
    (hnext : (σ' x).next = l.headD b)
    (hhead : (σ' (l.headD b)).prev = x)
    (hn : ∀ y ∈ l, (σ' y).next = (σ y).next)
    (hp : ∀ y ∈ l ++ [b], y ≠ l.headD b → (σ' y).prev = (σ y).prev) :
    chain σ' x l b := by
  cases l with
  | nil => exact ⟨hnext, hhead⟩
  | cons y l' =>
    have hhd : (y :: l').headD b = y := rfl
    rw [hhd] at hnext hhead hp
    refine ⟨hnext, hhead, ?_⟩
    refine chain_frame ?_ ?_ hc.2.2
    · intro z hz
      exact hn z hz
    · intro z hz
      refine hp z (by simpa using Or.inr (by simpa using hz)) ?_
      rcases (by simpa using hz : z ∈ l' ∨ z = b) with h1 | h1
      · intro h2
        rw [h2] at h1
        exact (List.nodup_cons.1 hl).1 h1
      · intro h2
        rw [h2] at h1
        refine hbl ?_
        rw [← h1]
        exact List.mem_cons_self y l'

theorem mem_getLastD_cons (l : List Nat) (a : Nat) : l.getLastD a ∈ a :: l := by
  rcases List.eq_nil_or_concat l with rfl | ⟨l₀, t, hlt⟩
  · simp
  · subst hlt
    simp [List.getLastD_concat]

theorem mem_headD_cons (l : List Nat) (a : Nat) : l.headD a ∈ a :: l := by
  cases l <;> simp

/-- `INIT_LIST_HEAD` produces a valid empty ring. -/
theorem represents_init (σ : Heap) (s : Nat) :
    represents (Complete.INIT_LIST_HEAD σ s) s [] := by
  refine ⟨by simp, (chain_nil _ _ _).2 ⟨?_, ?_⟩⟩
  · simp [Complete.INIT_LIST_HEAD, writePrev_next, writeNext_next]
  · simp [Complete.INIT_LIST_HEAD, writePrev_prev]

/-- `list_add` (head insertion) of a fresh node prepends it to the ring. -/
theorem represents_list_add {σ : Heap} {s x : Nat} {l : List Nat}
    (hr : represents σ s l) (hx : x ∉ s :: l) :
    represents (Complete.list_add σ x s) s (x :: l) := by
  obtain ⟨hnd, hch⟩ := hr
  have hxs : x ≠ s := fun h => hx (by simp [h])
  have hxl : x ∉ l := fun h => hx (by simp [h])
  have hsl : s ∉ l := (List.nodup_cons.1 hnd).1
  have hl : l.Nodup := (List.nodup_cons.1 hnd).2
  have hhm : l.headD s ∈ s :: l := mem_headD_cons l s
  have hhx : l.headD s ≠ x := fun h => hx (h ▸ hhm)
  constructor
  · rw [List.nodup_cons]
    refine ⟨?_, List.nodup_cons.2 ⟨hxl, hl⟩⟩
    intro hmem
    rcases List.mem_cons.1 hmem with h1 | h1
    · exact hxs h1.symm
    · exact hsl h1
  · refine (chain_cons _ _ _ _ _).2 ⟨?_, ?_, ?_⟩
    · rw [Complete.list_add_next]
      simp
    · rw [Complete.list_add_prev]
      simp
    · refine chain_rehead hch hsl hl ?_ ?_ ?_ ?_
      · rw [Complete.list_add_next, if_neg hxs, if_pos rfl]
        exact chain_next_head hch
      · rw [Complete.list_add_prev, if_neg hhx,
          if_pos (chain_next_head hch).symm]
      · intro y hy
        have hys : y ≠ s := fun h => hsl (h ▸ hy)
        have hyx : y ≠ x := fun h => hxl (h ▸ hy)
        rw [Complete.list_add_next, if_neg hys, if_neg hyx]
      · intro y hy hyh
        have hyx : y ≠ x := by
          rcases (by simpa using hy : y ∈ l ∨ y = s) with h1 | h1
          · exact fun h => hxl (h ▸ h1)
          · exact fun h => hxs (h ▸ h1)
        rw [Complete.list_add_prev, if_neg hyx, if_neg]
        rw [chain_next_head hch]
        exact hyh

/-- `list_add_tail` (tail insertion) of a fresh node appends it to the ring. -/
theorem represents_list_add_tail {σ : Heap} {s x : Nat} {l : List Nat}
    (hr : represents σ s l) (hx : x ∉ s :: l) :
    represents (Complete.list_add_tail σ x s) s (l ++ [x]) := by
  obtain ⟨hnd, hch⟩ := hr
  have hxs : x ≠ s := fun h => hx (by simp [h])
  have hxl : x ∉ l := fun h => hx (by simp [h])
  have hsl : s ∉ l := (List.nodup_cons.1 hnd).1
  have hprev : (σ s).prev = l.getLastD s := chain_prev_last hch
  have htm : l.getLastD s ∈ s :: l := mem_getLastD_cons l s
  have htx : l.getLastD s ≠ x := fun h => hx (h ▸ htm)
  constructor
  · have hdisj : (s :: l).Disjoint [x] := by
      intro y hy hy2
      rw [List.mem_singleton] at hy2
      subst hy2
      exact hx hy
    have hnd2 : ((s :: l) ++ [x]).Nodup :=
      hnd.append (List.nodup_singleton x) hdisj
    simpa using hnd2
  · refine chain_snoc.2 ⟨?_, ?_, ?_⟩
    · refine chain_retarget hch hnd ?_ ?_ ?_ ?_
      · intro y hy hyt
        have hyx : y ≠ x := fun h => hx (h ▸ hy)
        rw [Complete.list_add_tail_next, if_neg hyx, hprev, if_neg hyt]
      · intro y hy
        have hys : y ≠ s := fun h => hsl (h ▸ hy)
        have hyx : y ≠ x := fun h => hxl (h ▸ hy)
        rw [Complete.list_add_tail_prev, if_neg hys, if_neg hyx]
      · rw [Complete.list_add_tail_next, if_neg htx, hprev, if_pos rfl]
      · rw [Complete.list_add_tail_prev, if_neg hxs, if_pos rfl]
        exact hprev
    · rw [Complete.list_add_tail_next, if_pos rfl]
    · rw [Complete.list_add_tail_prev, if_pos rfl]

/-- `list_del` removes exactly its argument from the ring. -/
theorem represents_list_del {σ : Heap} {s x : Nat} {l₁ l₂ : List Nat}
    (hr : represents σ s (l₁ ++ x :: l₂)) :
    represents (Complete.list_del σ x) s (l₁ ++ l₂) := by
  obtain ⟨hnd, hch⟩ := hr
  have hc1 : chain σ s l₁ x := (chain_append.1 hch).1
  have hc2 : chain σ x l₂ s := (chain_append.1 hch).2
  have hxp : (σ x).prev = l₁.getLastD s := chain_prev_last hc1
  have hxn : (σ x).next = l₂.headD s := chain_next_head hc2
  have hs1 : s ∉ l₁ ++ x :: l₂ := (List.nodup_cons.1 hnd).1
  have hnd0 : (l₁ ++ x :: l₂).Nodup := (List.nodup_cons.1 hnd).2
  have hsl₁ : s ∉ l₁ := fun h => hs1 (by simp [h])
  have hsx : s ≠ x := fun h => hs1 (by simp [h])
  have hsl₂ : s ∉ l₂ := fun h => hs1 (by simp [h])
  have hdisj : ∀ y ∈ l₁, y ∉ x :: l₂ := by
    rw [List.nodup_append] at hnd0
    intro y hy hy2
    exact hnd0.2.2 hy hy2
  have hl₁nd : l₁.Nodup := ((List.nodup_append).1 hnd0).1
  have hxl₂nd : (x :: l₂).Nodup := ((List.nodup_append).1 hnd0).2.1
  have hl₂nd : l₂.Nodup := (List.nodup_cons.1 hxl₂nd).2
  have hnd1 : (s :: l₁).Nodup := List.nodup_cons.2 ⟨hsl₁, hl₁nd⟩
  have hpmem : l₁.getLastD s ∈ s :: l₁ := mem_getLastD_cons l₁ s
  have hndres : (s :: (l₁ ++ l₂)).Nodup := by
    have hsub : List.Sublist (s :: (l₁ ++ l₂)) (s :: (l₁ ++ x :: l₂)) :=
      List.Sublist.cons₂ s
        (List.Sublist.append_left (List.Sublist.cons x (List.Sublist.refl l₂)) l₁)
    exact List.Nodup.sublist hsub hnd
  refine ⟨hndres, ?_⟩
  cases l₂ with
  | nil =>
    simp only [List.headD_nil] at hxn
    rw [List.append_nil]
    refine chain_retarget hc1 hnd1 ?_ ?_ ?_ ?_
    · intro z hz hzt
      rw [Complete.list_del_next, hxp, if_neg hzt]
    · intro z hz
      have hzs : z ≠ s := fun h => hsl₁ (h ▸ hz)
      rw [Complete.list_del_prev, hxn, if_neg hzs]
    · rw [Complete.list_del_next, hxp, if_pos rfl, hxn]
    · rw [Complete.list_del_prev, hxn, if_pos rfl, hxp]
  | cons y l₂' =>
    simp only [List.headD_cons] at hxn
    obtain ⟨hxy2, hyp2, hc2'⟩ := hc2
    have hyl₂ : y ∉ l₂' := (List.nodup_cons.1 hl₂nd).1
    have hsy : s ≠ y := fun h => hsl₂ (by rw [h]; exact List.mem_cons_self y l₂')
    refine chain_append.2 ⟨?_, ?_⟩
    · refine chain_retarget hc1 hnd1 ?_ ?_ ?_ ?_
      · intro z hz hzt
        rw [Complete.list_del_next, hxp, if_neg hzt]
      · intro z hz
        have hzy : z ≠ y := fun h => hdisj z hz (by simp [h])
        rw [Complete.list_del_prev, hxn, if_neg hzy]
      · rw [Complete.list_del_next, hxp, if_pos rfl, hxn]
      · rw [Complete.list_del_prev, hxn, if_pos rfl, hxp]
    · refine chain_frame ?_ ?_ hc2'
      · intro z hz
        have hzp : z ≠ l₁.getLastD s := by
          intro h
          rcases List.mem_cons.1 hpmem with h1 | h1
          · refine hsl₂ ?_
            rw [← h1, ← h]
            exact hz
          · refine hdisj _ h1 ?_
            rw [← h]
            simp [hz]
        rw [Complete.list_del_next, hxp, if_neg hzp]
      · intro z hz
        have hzy : z ≠ y := by
          rcases (by simpa using hz : z ∈ l₂' ∨ z = s) with h1 | h1
          · exact fun h => hyl₂ (h ▸ h1)
          · intro h
            rw [h] at h1
            exact hsy h1.symm
        rw [Complete.list_del_prev, hxn, if_neg hzy]

/-- Reachability from the sentinel by following forward pointers. -/
inductive Reach (σ : Heap) (s : Nat) : Nat → Prop
  | refl : Reach σ s s
  | step {a : Nat} : Reach σ s a → Reach σ s ((σ a).next)

/-- The ring-closure invariant: every link reachable from the sentinel by
forward pointers satisfies `L.next.prev = L` and `L.prev.next = L`. -/
def ringClosure (σ : Heap) (s : Nat) : Prop :=
  ∀ L, Reach σ s L → (σ (σ L).next).prev = L ∧ (σ (σ L).prev).next = L

theorem reach_mem {σ : Heap} {s L : Nat} {l : List Nat}
    (hr : represents σ s l) (h : Reach σ s L) : L ∈ s :: l := by
  induction h with
  | refl => exact List.mem_cons_self s l
  | @step a _ ih =>
    have h2 : (σ a).next ∈ l ++ [s] := chain_mem_next hr.2 ih
    rcases (by simpa using h2 : (σ a).next ∈ l ∨ (σ a).next = s) with h1 | h1
    · simp [h1]
    · simp [h1]

theorem represents_ringClosure {σ : Heap} {s : Nat} {l : List Nat}
    (hr : represents σ s l) : ringClosure σ s := by
  intro L hL
  have hmem := reach_mem hr hL
  refine ⟨chain_fwd_closure hr.2 hmem, chain_bwd_closure hr.2 ?_⟩
  rcases List.mem_cons.1 hmem with h1 | h1
  · simp [h1]
  · simp [h1]

/-- One mutation of the ring, as exercised by the test drivers. -/
inductive Op where
  | insHead (x : Nat)
  | insTail (x : Nat)
  | del (x : Nat)
deriving DecidableEq, Repr

/-- Execute one operation of the C API against the heap. -/
def applyOp (s : Nat) (σ : Heap) : Op → Heap
  | Op.insHead x => Complete.list_add σ x s
  | Op.insTail x => Complete.list_add_tail σ x s
  | Op.del x => Complete.list_del σ x

/-- Execute a whole sequence of operations. -/
def run (s : Nat) (σ : Heap) (ops : List Op) : Heap :=
  ops.foldl (applyOp s) σ

/-- The same operation on the abstract member list. -/
def absOp (l : List Nat) : Op → List Nat
  | Op.insHead x => x :: l
  | Op.insTail x => l ++ [x]
  | Op.del x => l.erase x

def absRun (l : List Nat) (ops : List Op) : List Nat :=
  ops.foldl absOp l

/-- The caller contract: inserted nodes are fresh (distinct from the
sentinel and every current member), unlinked nodes are current members. -/
def validFrom (s : Nat) : List Nat → List Op → Bool
  | _, [] => true
  | l, Op.insHead x :: ops => decide (x ∉ s :: l) && validFrom s (x :: l) ops
  | l, Op.insTail x :: ops => decide (x ∉ s :: l) && validFrom s (l ++ [x]) ops
  | l, Op.del x :: ops => decide (x ∈ l) && validFrom s (l.erase x) ops

theorem run_represents {σ : Heap} {s : Nat} {l : List Nat} {ops : List Op}
    (hr : represents σ s l) (hv : validFrom s l ops = true) :
    represents (run s σ ops) s (absRun l ops) := by
  induction ops generalizing σ l with
  | nil => exact hr
  | cons op ops ih =>
    cases op with
    | insHead x =>
      rw [validFrom, Bool.and_eq_true, decide_eq_true_eq] at hv
      simp only [run, absRun, List.foldl_cons, applyOp, absOp]
      exact ih (represents_list_add hr hv.1) hv.2
    | insTail x =>
      rw [validFrom, Bool.and_eq_true, decide_eq_true_eq] at hv
      simp only [run, absRun, List.foldl_cons, applyOp, absOp]
      exact ih (represents_list_add_tail hr hv.1) hv.2
    | del x =>
      rw [validFrom, Bool.and_eq_true, decide_eq_true_eq] at hv
      obtain ⟨l₁, l₂, rfl⟩ := List.append_of_mem hv.1
      have hxl₁ : x ∉ l₁ := by
        have hnd0 : (l₁ ++ x :: l₂).Nodup := (List.nodup_cons.1 hr.1).2
        rw [List.nodup_append] at hnd0
        intro hmem
        exact hnd0.2.2 hmem (by simp)
      have herase : (l₁ ++ x :: l₂).erase x = l₁ ++ l₂ := by
        rw [List.erase_append_right _ hxl₁, List.erase_cons_head]
      rw [herase] at hv
      simp only [run, absRun, List.foldl_cons, applyOp, absOp, herase]
      exact ih (represents_list_del hr) hv.2

theorem validFrom_take {s : Nat} {l : List Nat} {ops : List Op}
    (hv : validFrom s l ops = true) (n : Nat) :
    validFrom s l (ops.take n) = true := by
  induction ops generalizing l n with
  | nil => simp [validFrom]
  | cons op ops ih =>
    cases n with
    | zero => rfl
    | succ n =>
      rw [List.take_succ_cons]
      cases op with
      | insHead x =>
        rw [validFrom, Bool.and_eq_true] at hv ⊢
        exact ⟨hv.1, ih hv.2 n⟩
      | insTail x =>
        rw [validFrom, Bool.and_eq_true] at hv ⊢
        exact ⟨hv.1, ih hv.2 n⟩
      | del x =>
        rw [validFrom, Bool.and_eq_true] at hv ⊢
        exact ⟨hv.1, ih hv.2 n⟩

/-- The cursor loop of the `list_for_each` macro: advance `pos = pos->next`
until `pos` is the sentinel again, collecting the visited links.  A fuel
argument makes the loop a total function. -/
def traverseFrom (σ : Heap) (h : Nat) : Nat → Nat → List Nat
  | 0, _ => []
  | Nat.succ fuel, pos =>
    if pos = h then [] else pos :: traverseFrom σ h fuel ((σ pos).next)

/-- `list_for_each(pos, head)`: iterate from `head->next` to the sentinel. -/
def list_for_each (σ : Heap) (h : Nat) (fuel : Nat) : List Nat :=
  traverseFrom σ h fuel ((σ h).next)

theorem traverseFrom_succ (σ : Heap) (h fuel pos : Nat) :
    traverseFrom σ h (fuel + 1) pos =
      if pos = h then [] else pos :: traverseFrom σ h fuel ((σ pos).next) := rfl

theorem traverseFrom_sentinel (σ : Heap) (h fuel : Nat) :
    traverseFrom σ h fuel h = [] := by
  cases fuel with
  | zero => rfl
  | succ fuel => rw [traverseFrom_succ, if_pos rfl]

theorem traverseFrom_chain {σ : Heap} {s : Nat} {l : List Nat} {y fuel : Nat}
    (hc : chain σ y l s) (hy : y ≠ s) (hl : ∀ z ∈ l, z ≠ s)
    (hf : l.length + 1 ≤ fuel) :
    traverseFrom σ s fuel y = y :: l := by
  induction l generalizing y fuel with
  | nil =>
    obtain ⟨f, rfl⟩ : ∃ f, fuel = f + 1 := ⟨fuel - 1, by omega⟩
    rw [traverseFrom_succ, if_neg hy, hc.1, traverseFrom_sentinel]
  | cons z l' ih =>
    obtain ⟨f, rfl⟩ : ∃ f, fuel = f + 1 := ⟨fuel - 1, by omega⟩
    rw [traverseFrom_succ, if_neg hy, hc.1]
    congr 1
    refine ih hc.2.2 (hl z (by simp)) (fun w hw => hl w (by simp [hw])) ?_
    have : (z :: l').length + 1 ≤ f + 1 := hf
    simpa using Nat.le_of_succ_le_succ this

/-- Forward traversal of a represented ring yields exactly the member list. -/
theorem represents_traverse {σ : Heap} {s : Nat} {l : List Nat} {fuel : Nat}
    (hr : represents σ s l) (hf : l.length + 1 ≤ fuel) :
    list_for_each σ s fuel = l := by
  cases l with
  | nil =>
    have hn : (σ s).next = s := by simpa using chain_next_head hr.2
    rw [list_for_each, hn, traverseFrom_sentinel]
  | cons y l' =>
    have hn : (σ s).next = y := by simpa using chain_next_head hr.2
    have hsm : s ∉ y :: l' := (List.nodup_cons.1 hr.1).1
    have hys : y ≠ s := fun h => hsm (by simp [h])
    rw [list_for_each, hn]
    refine traverseFrom_chain hr.2.2.2 hys ?_ (by simpa using Nat.le_of_succ_le hf)
    intro z hz h
    exact hsm (by simp [h ▸ hz])

/-- The `list_for_each_safe` loop of the delete-all workload: the successor
is captured before the body unlinks the current node, and the captured
value is used to advance.  Running out of fuel before reaching the
sentinel yields `none`. -/
def delAllSafe (s : Nat) : Nat → Nat → Heap → Option (List Nat × Heap)
  | 0, pos, σ => if pos = s then some ([], σ) else none
  | Nat.succ fuel, pos, σ =>
    if pos = s then some ([], σ)
    else
      match delAllSafe s fuel ((σ pos).next) (Complete.list_del σ pos) with
      | none => none
      | some (vs, σf) => some (pos :: vs, σf)

theorem delAllSafe_zero (s pos : Nat) (σ : Heap) :
    delAllSafe s 0 pos σ = if pos = s then some ([], σ) else none := rfl

theorem delAllSafe_succ (s fuel pos : Nat) (σ : Heap) :
    delAllSafe s (fuel + 1) pos σ =
      if pos = s then some ([], σ)
      else
        match delAllSafe s fuel ((σ pos).next) (Complete.list_del σ pos) with
        | none => none
        | some (vs, σf) => some (pos :: vs, σf) := rfl

/-- Delete-safe traversal that unlinks every visited node needs exactly
`l.length` iterations, visits exactly the members in order, and leaves an
empty ring. -/
theorem delAllSafe_represents {σ : Heap} {s : Nat} {l : List Nat}
    (hr : represents σ s l) :
    ∃ σf, delAllSafe s l.length ((σ s).next) σ = some (l, σf) ∧
      represents σf s [] := by
  induction l generalizing σ with
  | nil =>
    have hn : (σ s).next = s := by simpa using chain_next_head hr.2
    exact ⟨σ, by rw [hn, List.length_nil, delAllSafe_zero, if_pos rfl], hr⟩
  | cons y l' ih =>
    have hn : (σ s).next = y := by simpa using chain_next_head hr.2
    have hsm : s ∉ y :: l' := (List.nodup_cons.1 hr.1).1
    have hys : y ≠ s := fun h => hsm (by simp [h])
    have hr' : represents (Complete.list_del σ y) s l' := by
      have h0 : represents σ s ([] ++ y :: l') := by simpa using hr
      simpa using represents_list_del h0
    have hcap : (Complete.list_del σ y s).next = (σ y).next :=
      (chain_next_head hr'.2).trans (chain_next_head hr.2.2.2).symm
    obtain ⟨σf, heq, hf⟩ := ih hr'
    rw [hcap] at heq
    refine ⟨σf, ?_, hf⟩
    rw [hn, List.length_cons, delAllSafe_succ, if_neg hys, heq]

/-- Folding `list_add_tail` over fresh nodes appends them in order. -/
theorem fold_tail_represents {σ : Heap} {s : Nat} {l xs : List Nat}
    (hr : represents σ s l) (hnd : (s :: (l ++ xs)).Nodup) :
    represents (xs.foldl (fun τ x => Complete.list_add_tail τ x s) σ) s
      (l ++ xs) := by
  induction xs generalizing σ l with
  | nil => simpa using hr
  | cons x xs ih =>
    have hx : x ∉ s :: l := by
      intro hmem
      rcases List.mem_cons.1 hmem with h1 | h1
      · exact (List.nodup_cons.1 hnd).1 (by simp [← h1])
      · have h2 := (List.nodup_cons.1 hnd).2
        rw [List.nodup_append] at h2
        exact h2.2.2 h1 (by simp)
    have step := represents_list_add_tail hr hx
    have hnd' : (s :: ((l ++ [x]) ++ xs)).Nodup := by simpa using hnd
    have := ih step hnd'
    simpa using this

/-- Folding `list_add` over fresh nodes prepends them, reversing the order. -/
theorem fold_head_represents {σ : Heap} {s : Nat} {l xs : List Nat}
    (hr : represents σ s l) (hnd : (s :: (l ++ xs)).Nodup) :
    represents (xs.foldl (fun τ x => Complete.list_add τ x s) σ) s
      (xs.reverse ++ l) := by
  induction xs generalizing σ l with
  | nil => simpa using hr
  | cons x xs ih =>
    have hx : x ∉ s :: l := by
      intro hmem
      rcases List.mem_cons.1 hmem with h1 | h1
      · exact (List.nodup_cons.1 hnd).1 (by simp [← h1])
      · have h2 := (List.nodup_cons.1 hnd).2
        rw [List.nodup_append] at h2
        exact h2.2.2 h1 (by simp)
    have step := represents_list_add hr hx
    have hnd' : (s :: ((x :: l) ++ xs)).Nodup := by
      rw [List.nodup_cons] at hnd ⊢
      constructor
      · intro hmem
        have h2 : s ∈ x :: (l ++ xs) := by simpa using hmem
        exact hnd.1 (List.perm_middle.symm.mem_iff.1 h2)
      · have h2 : (x :: (l ++ xs)).Nodup :=
          List.perm_middle.symm.nodup_iff.2 hnd.2
        simpa using h2
    have hres := ih step hnd'
    simp only [List.foldl_cons]
    rw [List.reverse_cons, List.append_assoc]
    simpa using hres

def isInsert : Op → Bool
  | Op.insHead _ => true
  | Op.insTail _ => true
  | Op.del _ => false

def countIns (ops : List Op) : Nat := (ops.filter isInsert).length

def countDel (ops : List Op) : Nat :=
  (ops.filter (fun op => ! isInsert op)).length

/-- Outstanding members = insertions − unlinks (stated without subtraction). -/
theorem absRun_length {s : Nat} {ops : List Op} {l : List Nat}
    (hv : validFrom s l ops = true) :
    (absRun l ops).length + countDel ops = l.length + countIns ops := by
  induction ops generalizing l with
  | nil => simp [absRun, countIns, countDel]
  | cons op ops ih =>
    cases op with
    | insHead x =>
      rw [validFrom, Bool.and_eq_true] at hv
      have := ih hv.2
      simp only [absRun, List.foldl_cons, absOp] at this ⊢
      simp only [countIns, countDel, List.filter_cons, isInsert] at this ⊢
      simp at this ⊢
      omega
    | insTail x =>
      rw [validFrom, Bool.and_eq_true] at hv
      have := ih hv.2
      simp only [absRun, List.foldl_cons, absOp] at this ⊢
      simp only [countIns, countDel, List.filter_cons, isInsert] at this ⊢
      simp at this ⊢
      omega
    | del x =>
      rw [validFrom, Bool.and_eq_true, decide_eq_true_eq] at hv
      have hlen : (l.erase x).length = l.length - 1 :=
        List.length_erase_of_mem hv.1
      have hpos : 0 < l.length := List.length_pos.2 (List.ne_nil_of_mem hv.1)
      have := ih hv.2
      simp only [absRun, List.foldl_cons, absOp] at this ⊢
      simp only [countIns, countDel, List.filter_cons, isInsert] at this ⊢
      simp at this ⊢
      omega

theorem represents_empty_iff {σ : Heap} {s : Nat} {l : List Nat}
    (hr : represents σ s l) : Complete.list_empty σ s = true ↔ l = [] := by
  rw [Complete.list_empty, beq_iff_eq]
  constructor
  · intro h
    cases l with
    | nil => rfl
    | cons y l' =>
      have hn : (σ s).next = y := by simpa using chain_next_head hr.2
      rw [hn] at h
      exact absurd ((List.nodup_cons.1 hr.1).1) (by simp [← h])
  · intro h
    subst h
    exact hr.2.1

theorem represents_prev_empty_iff {σ : Heap} {s : Nat} {l : List Nat}
    (hr : represents σ s l) : (σ s).prev = s ↔ l = [] := by
  constructor
  · intro h
    rcases List.eq_nil_or_concat l with rfl | ⟨l₀, t, hlt⟩
    · rfl
    · subst hlt
      have hp : (σ s).prev = t := by
        have := chain_prev_last hr.2
        simpa [List.getLastD_concat] using this
      rw [hp] at h
      exact absurd ((List.nodup_cons.1 hr.1).1) (by simp [h])
  · intro h
    subst h
    exact hr.2.2

theorem link_ext (a b : Link) (h1 : a.next = b.next) (h2 : a.prev = b.prev) :
    a = b := by
  cases a
  cases b
  simp_all

namespace Full

/-- Dereference a pointer; address 0 is the C null pointer, so reading
through it faults. -/
def deref (σ : Heap) (p : Nat) : Option Link :=
  if p = 0 then none else some (σ p)

/-- The store `p->next = v`, faulting on a null pointer. -/
def wNext (σ : Heap) (p v : Nat) : Option Heap :=
  if p = 0 then none else some (writeNext σ p v)

/-- The store `p->prev = v`, faulting on a null pointer. -/
def wPrev (σ : Heap) (p v : Nat) : Option Heap :=
  if p = 0 then none else some (writePrev σ p v)

/-- `__list_add(new_node, prev, next)` of test-kernel-full.c:
`next->prev = new_node; new_node->next = next; new_node->prev = prev;
prev->next = new_node;`. -/
def __list_add (σ : Heap) (new_node prev next : Nat) : Option Heap :=
  match wPrev σ next new_node with
  | none => none
  | some σ1 =>
    match wNext σ1 new_node next with
    | none => none
    | some σ2 =>
      match wPrev σ2 new_node prev with
      | none => none
      | some σ3 => wNext σ3 prev new_node

/-- `list_add(new_node, head)` = `__list_add(new_node, head, head->next)`. -/
def list_add (σ : Heap) (new_node hd : Nat) : Option Heap :=
  match deref σ hd with
  | none => none
  | some h => __list_add σ new_node hd h.next

/-- `list_add_tail(new_node, head)` =
`__list_add(new_node, head->prev, head)`. -/
def list_add_tail (σ : Heap) (new_node hd : Nat) : Option Heap :=
  match deref σ hd with
  | none => none
  | some h => __list_add σ new_node h.prev hd

/-- `__list_del(prev, next)`: `next->prev = prev; prev->next = next;`. -/
def __list_del (σ : Heap) (prev next : Nat) : Option Heap :=
  match wPrev σ next prev with
  | none => none
  | some σ1 => wNext σ1 prev next

/-- `list_del(entry)` of test-kernel-full.c:
`__list_del(entry->prev, entry->next); entry->next = 0; entry->prev = 0;`
— the removed node is NULL-poisoned. -/
def list_del (σ : Heap) (entry : Nat) : Option Heap :=
  match deref σ entry with
  | none => none
  | some e =>
    match __list_del σ e.prev e.next with
    | none => none
    | some σ2 =>
      match wNext σ2 entry 0 with
      | none => none
      | some σ3 => wPrev σ3 entry 0

end Full

theorem deref_some {σ : Heap} {p : Nat} (h : p ≠ 0) :
    Full.deref σ p = some (σ p) := if_neg h

theorem wNext_some {σ : Heap} {p : Nat} (h : p ≠ 0) (v : Nat) :
    Full.wNext σ p v = some (writeNext σ p v) := if_neg h

theorem wPrev_some {σ : Heap} {p : Nat} (h : p ≠ 0) (v : Nat) :
    Full.wPrev σ p v = some (writePrev σ p v) := if_neg h

/-- The heap produced by a successful `__list_add(nw, prev, next)`. -/
def spliced (σ : Heap) (nw prev next : Nat) : Heap :=
  writeNext (writePrev (writeNext (writePrev σ next nw) nw next) nw prev)
    prev nw

theorem full__list_add_eq (σ : Heap) (nw prev next : Nat)
    (hx : next ≠ 0) (hn : nw ≠ 0) (hp : prev ≠ 0) :
    Full.__list_add σ nw prev next = some (spliced σ nw prev next) := by
  simp [Full.__list_add, Full.wPrev, Full.wNext, hx, hn, hp, spliced]

theorem spliced_next (σ : Heap) (nw prev next x : Nat) :
    (spliced σ nw prev next x).next =
      if x = prev then nw else if x = nw then next else (σ x).next := by
  simp [spliced, writeNext_next, writePrev_next]

theorem spliced_prev (σ : Heap) (nw prev next x : Nat) :
    (spliced σ nw prev next x).prev =
      if x = nw then prev else if x = next then nw else (σ x).prev := by
  simp [spliced, writeNext_prev, writePrev_prev]

/-- The heap produced by a successful NULL-poisoning `list_del(e)`. -/
def delResult (σ : Heap) (e : Nat) : Heap :=
  writePrev
    (writeNext
      (writeNext (writePrev σ (σ e).next (σ e).prev) (σ e).prev (σ e).next)
      e 0)
    e 0

theorem full_list_del_eq {σ : Heap} {e : Nat}
    (he : e ≠ 0) (hp : (σ e).prev ≠ 0) (hn : (σ e).next ≠ 0) :
    Full.list_del σ e = some (delResult σ e) := by
  simp [Full.list_del, Full.__list_del, Full.deref, Full.wPrev, Full.wNext,
    he, hp, hn, delResult]

theorem delResult_self (σ : Heap) (e : Nat) : delResult σ e e = Link.mk 0 0 := by
  refine link_ext _ _ ?_ ?_
  · simp [delResult, writePrev_next, writeNext_next]
  · simp [delResult, writePrev_prev]

theorem full_list_del_poisoned_faults {σ : Heap} {e : Nat} (he : e ≠ 0) :
    Full.list_del (delResult σ e) e = none := by
  have hfx : delResult σ e e = Link.mk 0 0 := delResult_self σ e
  simp [Full.list_del, Full.deref, he, hfx, Full.__list_del, Full.wPrev]

theorem full_list_add_eq (σ : Heap) (nw h : Nat)
    (hh : h ≠ 0) (hn : nw ≠ 0) (hx : (σ h).next ≠ 0) :
    Full.list_add σ nw h = some (Complete.list_add σ nw h) := by
  have hstep : Full.list_add σ nw h = Full.__list_add σ nw h (σ h).next := by
    simp [Full.list_add, Full.deref, hh]
  rw [hstep, full__list_add_eq σ nw h (σ h).next hx hn hh]
  have : Complete.list_add σ nw h = spliced σ nw h ((σ h).next) := by
    simp [Complete.list_add, spliced, writePrev_next]
  rw [this]

theorem complete_head_eq_spliced (σ : Heap) (nw h : Nat) :
    Complete.list_add σ nw h = spliced σ nw h ((σ h).next) := by
  simp [Complete.list_add, spliced, writePrev_next]

theorem complete_tail_eq_spliced (σ : Heap) (nw h : Nat)
    (h1 : nw ≠ h) (h2 : nw ≠ (σ h).prev) :
    Complete.list_add_tail σ nw h = spliced σ nw ((σ h).prev) h := by
  funext a
  refine link_ext _ _ ?_ ?_
  · rw [Complete.list_add_tail_next, spliced_next]
    by_cases h3 : a = nw
    · subst h3
      rw [if_pos rfl, if_neg h2, if_pos rfl]
    · rw [if_neg h3]
      by_cases h4 : a = (σ h).prev
      · rw [if_pos h4, if_pos h4]
      · rw [if_neg h4, if_neg h4, if_neg h3]
  · rw [Complete.list_add_tail_prev, spliced_prev]
    by_cases h3 : a = nw
    · subst h3
      rw [if_pos rfl, if_neg h1, if_pos rfl]
    · rw [if_neg h3, if_neg h3]

theorem full_list_add_tail_eq (σ : Heap) (nw h : Nat)
    (hh : h ≠ 0) (hn : nw ≠ 0) (hp : (σ h).prev ≠ 0)
    (h1 : nw ≠ h) (h2 : nw ≠ (σ h).prev) :
    Full.list_add_tail σ nw h = some (Complete.list_add_tail σ nw h) := by
  have hstep : Full.list_add_tail σ nw h = Full.__list_add σ nw ((σ h).prev) h := by
    simp [Full.list_add_tail, Full.deref, hh]
  rw [hstep, full__list_add_eq σ nw ((σ h).prev) h hh hn hp,
    complete_tail_eq_spliced σ nw h h1 h2]

theorem list_del_preserves_entry (σ : Heap) (x : Nat)
    (hxp : x ≠ (σ x).prev) (hxn : x ≠ (σ x).next) :
    Complete.list_del σ x x = σ x := by
  refine link_ext _ _ ?_ ?_
  · rw [Complete.list_del_next, if_neg hxp]
  · rw [Complete.list_del_prev, if_neg hxn]

theorem list_del_idem (σ : Heap) (x : Nat)
    (hxp : x ≠ (σ x).prev) (hxn : x ≠ (σ x).next) :
    Complete.list_del (Complete.list_del σ x) x = Complete.list_del σ x := by
  have hx : Complete.list_del σ x x = σ x :=
    list_del_preserves_entry σ x hxp hxn
  funext a
  refine link_ext _ _ ?_ ?_
  · rw [Complete.list_del_next (Complete.list_del σ x) x a, hx]
    by_cases hap : a = (σ x).prev
    · rw [if_pos hap, Complete.list_del_next, if_pos hap]
    · rw [if_neg hap]
  · rw [Complete.list_del_prev (Complete.list_del σ x) x a, hx]
    by_cases han : a = (σ x).next
    · rw [if_pos han, Complete.list_del_prev, if_pos han]
    · rw [if_neg han]

/-- Byte size of `int` on the LP64 target assumed throughout the corpus. -/
def sizeof_int : Nat := 4

/-- Byte size of a pointer on the LP64 target. -/
def sizeof_ptr : Nat := 8

/-- Round `off` up to a multiple of the alignment `a`. -/
def alignTo (off a : Nat) : Nat := (off + a - 1) / a * a

/-- `offsetof(struct my_data, list)`: the `int id` field occupies bytes
0..3 and the embedded `struct list_head` requires pointer alignment. -/
def offsetof_my_data_list : Nat := alignTo sizeof_int sizeof_ptr

/-- `container_of(ptr, type, member)` of include/linux/types.h:
`(type *)((char *)(ptr) - offsetof(type, member))`. -/
def container_of (ptr off : Nat) : Nat := ptr - off

/-- The owner recovery hard-coded in `remove_item` of test-kernel-full.c:
`(struct my_data *)((char *)pos - 16)`. -/
def remove_item_recover (pos : Nat) : Nat := pos - 16

/-- A pointer field of a link node. -/
inductive Field where
  | nxt
  | prv
deriving DecidableEq, Repr

/-- One store instruction into a pointer field. -/
structure Wr where
  addr : Nat
  fld : Field
  val : Nat

def applyWr (σ : Heap) (w : Wr) : Heap :=
  match w.fld with
  | Field.nxt => writeNext σ w.addr w.val
  | Field.prv => writePrev σ w.addr w.val

def applyWrites (σ : Heap) (ws : List Wr) : Heap := ws.foldl applyWr σ

theorem applyWrites_frame {ws : List Wr} {a : Nat} (σ : Heap)
    (h : ∀ w ∈ ws, w.addr ≠ a) : applyWrites σ ws a = σ a := by
  induction ws generalizing σ with
  | nil => rfl
  | cons w ws ih =>
    have h1 : applyWrites σ (w :: ws) = applyWrites (applyWr σ w) ws := rfl
    rw [h1, ih (applyWr σ w) (fun v hv => h v (by simp [hv]))]
    have h2 : w.addr ≠ a := h w (by simp)
    cases hf : w.fld with
    | nxt => simp [applyWr, hf, writeNext, h2.symm]
    | prv => simp [applyWr, hf, writePrev, h2.symm]

theorem INIT_writes (σ : Heap) (s : Nat) :
    Complete.INIT_LIST_HEAD σ s =
      applyWrites σ [Wr.mk s Field.nxt s, Wr.mk s Field.prv s] := rfl

theorem list_add_writes (σ : Heap) (nw h : Nat) :
    Complete.list_add σ nw h =
      applyWrites σ
        [Wr.mk (σ h).next Field.prv nw, Wr.mk nw Field.nxt (σ h).next,
          Wr.mk nw Field.prv h, Wr.mk h Field.nxt nw] := by
  simp [Complete.list_add, applyWrites, applyWr, writePrev_next]

theorem list_add_tail_writes (σ : Heap) (nw h : Nat) :
    Complete.list_add_tail σ nw h =
      applyWrites σ
        [Wr.mk (σ h).prev Field.nxt nw, Wr.mk nw Field.nxt h,
          Wr.mk nw Field.prv (σ h).prev, Wr.mk h Field.prv nw] := by
  simp [Complete.list_add_tail, applyWrites, applyWr, writeNext_prev]

theorem list_del_writes (σ : Heap) (e : Nat) :
    Complete.list_del σ e =
      applyWrites σ
        [Wr.mk (σ e).prev Field.nxt (σ e).next,
          Wr.mk (σ e).next Field.prv (σ e).prev] := by
  simp [Complete.list_del, applyWrites, applyWr, writeNext_prev, writeNext_next]

/-- Memory as seen by the list primitive: the link heap plus the
records' non-link payload bytes, which no ring operation touches. -/
structure Mem where
  links : Heap
  payload : Nat → Int

/-- A ring operation acts on the link heap only. -/
def memApply (s : Nat) (m : Mem) (op : Op) : Mem :=
  Mem.mk (applyOp s m.links op) m.payload

/-- `INIT_LIST_HEAD` acts on the link heap only. -/
def memInit (s : Nat) (m : Mem) : Mem :=
  Mem.mk (Complete.INIT_LIST_HEAD m.links s) m.payload

/-- Every node self-looped: a supply of detached nodes, with node 1 a
valid empty sentinel. -/
def selfHeap : Heap := fun a => Link.mk a a

/-- Sentinel 1 with the single member 2. -/
def exHeap : Heap :=
  fun a => if a = 1 then Link.mk 2 2 else if a = 2 then Link.mk 1 1 else Link.mk 0 0

/-- Sentinel 1 with the members 2 and 3 in forward order. -/
def exHeap3 : Heap :=
  fun a =>
    if a = 1 then Link.mk 2 3
    else if a = 2 then Link.mk 3 1
    else if a = 3 then Link.mk 1 2
    else Link.mk 0 0

/-- C1: for every sequence of `list_add`, `list_add_tail` and `list_del`
operations applied with fresh (not-currently-linked, non-sentinel) nodes
and member unlinks to an initially empty list, after each operation every
link reachable from the sentinel by forward pointers satisfies
`L.next.prev = L` and `L.prev.next = L`. -/
theorem claim1_ring_closure (σ : Heap) (s : Nat) (ops : List Op)
    (h0 : (σ s).next = s ∧ (σ s).prev = s)
    (hv : validFrom s [] ops = true) (n : Nat) :
    ringClosure (run s σ (ops.take n)) s := by
  have hr0 : represents σ s [] := ⟨by simp, (chain_nil σ s s).2 h0⟩
  exact represents_ringClosure (run_represents hr0 (validFrom_take hv n))

theorem claim1_witness :
    ((selfHeap 1).next = 1 ∧ (selfHeap 1).prev = 1) ∧
    validFrom 1 [] [Op.insTail 2, Op.insHead 3, Op.del 2] = true ∧
    ringClosure (run 1 selfHeap ([Op.insTail 2, Op.insHead 3, Op.del 2].take 2)) 1 :=
  ⟨⟨rfl, rfl⟩, by decide,
    claim1_ring_closure selfHeap 1 [Op.insTail 2, Op.insHead 3, Op.del 2]
      ⟨rfl, rfl⟩ (by decide) 2⟩

/-- C2: `container_of` recovers the record base from the true field offset
(shown at offsets 8 and 0), but `remove_item` subtracts 16 while
`offsetof(struct my_data, list)` is 8 on the LP64 layout the corpus
assumes, so at the record address 0x1000 used by `add_item` it computes
0xFF8 instead of 0x1000. -/
theorem claim2_remove_item_offset_bug :
    offsetof_my_data_list = 8 ∧
    container_of (4096 + offsetof_my_data_list) offsetof_my_data_list = 4096 ∧
    container_of (4096 + 0) 0 = 4096 ∧
    remove_item_recover (4096 + offsetof_my_data_list) = 4088 ∧
    remove_item_recover (4096 + offsetof_my_data_list) ≠ 4096 := by
  decide

/-- C3: splicing a fresh node between two adjacent links `prev`/`next`
via `__list_add` establishes exactly the four advertised pointer facts and
changes no other pointer field of any link. -/
theorem claim3_link_between_spec (σ : Heap) (node prev next : Nat)
    (hadj1 : (σ prev).next = next) (hadj2 : (σ next).prev = prev)
    (hd1 : node ≠ prev) (hd2 : node ≠ next)
    (h0 : node ≠ 0) (hp0 : prev ≠ 0) (hx0 : next ≠ 0) :
    ∃ σ', Full.__list_add σ node prev next = some σ' ∧
      (σ' prev).next = node ∧ (σ' node).prev = prev ∧
      (σ' node).next = next ∧ (σ' next).prev = node ∧
      (∀ a, a ≠ prev → a ≠ node → (σ' a).next = (σ a).next) ∧
      (∀ a, a ≠ next → a ≠ node → (σ' a).prev = (σ a).prev) := by
  refine ⟨spliced σ node prev next, full__list_add_eq σ node prev next hx0 h0 hp0,
    ?_, ?_, ?_, ?_, ?_, ?_⟩
  · rw [spliced_next, if_pos rfl]
  · rw [spliced_prev, if_pos rfl]
  · rw [spliced_next, if_neg hd1, if_pos rfl]
  · rw [spliced_prev, if_neg (Ne.symm hd2), if_pos rfl]
  · intro a ha1 ha2
    rw [spliced_next, if_neg ha1, if_neg ha2]
  · intro a ha1 ha2
    rw [spliced_prev, if_neg ha2, if_neg ha1]

theorem claim3_witness :
    ((selfHeap 1).next = 1 ∧ (selfHeap 1).prev = 1 ∧ (2 : Nat) ≠ 1 ∧
      (2 : Nat) ≠ 0 ∧ (1 : Nat) ≠ 0) ∧
    (∃ σ', Full.__list_add selfHeap 2 1 1 = some σ' ∧
      (σ' 1).next = 2 ∧ (σ' 2).prev = 1 ∧
      (σ' 2).next = 1 ∧ (σ' 1).prev = 2 ∧
      (∀ a, a ≠ 1 → a ≠ 2 → (σ' a).next = (selfHeap a).next) ∧
      (∀ a, a ≠ 1 → a ≠ 2 → (σ' a).prev = (selfHeap a).prev)) :=
  ⟨⟨rfl, rfl, by decide, by decide, by decide⟩,
    claim3_link_between_spec selfHeap 2 1 1 rfl rfl (by decide) (by decide)
      (by decide) (by decide) (by decide)⟩

/-- C4 fails as stated: on a one-member ring (sentinel 1, member 2) the
inlined `list_add_tail` of test-kernel-complete.c and the
`__list_add`-based one of test-kernel-full.c produce different heaps both
when the inserted node aliases the sentinel (they disagree on the
sentinel's backward pointer) and when it aliases `list.backward`, the
current tail (they disagree on that node's forward pointer); so the two
are not extensionally equal over all inputs. -/
theorem claim4_counterexample :
    ((Complete.list_add_tail exHeap 1 1 1).prev = 1 ∧
      Option.map (fun τ => (τ 1).prev) (Full.list_add_tail exHeap 1 1) = some 2 ∧
      (1 : Nat) ≠ 2) ∧
    ((Complete.list_add_tail exHeap 2 1 2).next = 1 ∧
      Option.map (fun τ => (τ 2).next) (Full.list_add_tail exHeap 2 1) = some 2 ∧
      (1 : Nat) ≠ 2) := by
  decide

/-- C4 amended: with non-null pointers, `list_add` of both variants and
`link_between(node, list, list.forward)` agree on every state, including
aliased ones; the `list_add_tail` variants and
`link_between(node, list.backward, list)` agree provided the inserted
node is distinct from the sentinel and from `list.backward` — the two
aliasings of the counterexample — as every detached non-member node is. -/
theorem claim4_insert_equivalences (σ : Heap) (nw h : Nat)
    (hh : h ≠ 0) (hn : nw ≠ 0) (hx : (σ h).next ≠ 0) (hp : (σ h).prev ≠ 0) :
    (Full.list_add σ nw h = some (Complete.list_add σ nw h) ∧
      Complete.list_add σ nw h = spliced σ nw h ((σ h).next) ∧
      Full.list_add σ nw h = Full.__list_add σ nw h ((σ h).next)) ∧
    (nw ≠ h → nw ≠ (σ h).prev →
      Full.list_add_tail σ nw h = some (Complete.list_add_tail σ nw h) ∧
      Complete.list_add_tail σ nw h = spliced σ nw ((σ h).prev) h ∧
      Full.list_add_tail σ nw h = Full.__list_add σ nw ((σ h).prev) h) := by
  constructor
  · refine ⟨full_list_add_eq σ nw h hh hn hx, complete_head_eq_spliced σ nw h, ?_⟩
    simp [Full.list_add, Full.deref, hh]
  · intro h1 h2
    refine ⟨full_list_add_tail_eq σ nw h hh hn hp h1 h2,
      complete_tail_eq_spliced σ nw h h1 h2, ?_⟩
    simp [Full.list_add_tail, Full.deref, hh]

theorem claim4_witness :
    ((1 : Nat) ≠ 0 ∧ (4 : Nat) ≠ 0 ∧ (exHeap 1).next ≠ 0 ∧
      (exHeap 1).prev ≠ 0 ∧ (4 : Nat) ≠ 1 ∧ (4 : Nat) ≠ (exHeap 1).prev) ∧
    (Full.list_add exHeap 1 1 = some (Complete.list_add exHeap 1 1) ∧
      Complete.list_add exHeap 1 1 = spliced exHeap 1 1 ((exHeap 1).next) ∧
      Full.list_add exHeap 1 1 = Full.__list_add exHeap 1 1 ((exHeap 1).next)) ∧
    (Full.list_add_tail exHeap 4 1 = some (Complete.list_add_tail exHeap 4 1) ∧
      Complete.list_add_tail exHeap 4 1 = spliced exHeap 4 ((exHeap 1).prev) 1 ∧
      Full.list_add_tail exHeap 4 1 = Full.__list_add exHeap 4 ((exHeap 1).prev) 1) :=
  ⟨⟨by decide, by decide, by decide, by decide, by decide, by decide⟩,
    (claim4_insert_equivalences exHeap 1 1 (by decide) (by decide) (by decide)
      (by decide)).1,
    (claim4_insert_equivalences exHeap 4 1 (by decide) (by decide) (by decide)
      (by decide)).2 (by decide) (by decide)⟩

/-- C5: inserting distinct fresh nodes into an initially empty list via
`list_add_tail` makes forward traversal yield them in insertion order
(FIFO); via `list_add`, in reverse insertion order (LIFO). -/
theorem claim5_fifo_lifo (σ : Heap) (s : Nat) (xs : List Nat)
    (h0 : (σ s).next = s ∧ (σ s).prev = s)
    (hnd : xs.Nodup) (hs : s ∉ xs) :
    list_for_each (xs.foldl (fun τ x => Complete.list_add_tail τ x s) σ) s
      (xs.length + 1) = xs ∧
    list_for_each (xs.foldl (fun τ x => Complete.list_add τ x s) σ) s
      (xs.length + 1) = xs.reverse := by
  have hr0 : represents σ s [] := ⟨by simp, (chain_nil σ s s).2 h0⟩
  have hnd' : ((s : Nat) :: ([] ++ xs)).Nodup := by
    simp [List.nodup_cons, hnd, hs]
  constructor
  · have hrt := fold_tail_represents hr0 hnd'
    rw [List.nil_append] at hrt
    exact represents_traverse hrt (le_refl _)
  · have hrh := fold_head_represents hr0 hnd'
    rw [List.append_nil] at hrh
    refine represents_traverse hrh ?_
    simp

theorem claim5_witness :
    ((selfHeap 1).next = 1 ∧ (selfHeap 1).prev = 1) ∧
    ([2, 3] : List Nat).Nodup ∧ (1 : Nat) ∉ ([2, 3] : List Nat) ∧
    (list_for_each
        (([2, 3] : List Nat).foldl (fun τ x => Complete.list_add_tail τ x 1) selfHeap)
        1 3 = [2, 3] ∧
      list_for_each
        (([2, 3] : List Nat).foldl (fun τ x => Complete.list_add τ x 1) selfHeap)
        1 3 = [3, 2]) :=
  ⟨⟨rfl, rfl⟩, by decide, by decide,
    claim5_fifo_lifo selfHeap 1 [2, 3] ⟨rfl, rfl⟩ (by decide) (by decide)⟩

/-- C6: delete-safe traversal that unlinks every visited node terminates
after exactly `l.length` iterations, visits exactly the members (each
once, since the member list has no duplicates) in order, and leaves the
list empty. -/
theorem claim6_delete_safe (σ : Heap) (s : Nat) (l : List Nat)
    (hr : represents σ s l) :
    l.Nodup ∧
    ∃ σf, delAllSafe s l.length ((σ s).next) σ = some (l, σf) ∧
      Complete.list_empty σf s = true := by
  obtain ⟨σf, heq, hf⟩ := delAllSafe_represents hr
  exact ⟨(List.nodup_cons.1 hr.1).2, σf, heq, (represents_empty_iff hf).2 rfl⟩

theorem claim6_witness :
    represents exHeap3 1 [2, 3] ∧
    (([2, 3] : List Nat).Nodup ∧
      ∃ σf, delAllSafe 1 2 ((exHeap3 1).next) exHeap3 = some ([2, 3], σf) ∧
        Complete.list_empty σf 1 = true) :=
  ⟨⟨by decide, rfl, rfl, rfl, rfl, rfl, rfl⟩,
    claim6_delete_safe exHeap3 1 [2, 3] ⟨by decide, rfl, rfl, rfl, rfl, rfl, rfl⟩⟩

/-- C7: `list_empty` is true iff the sentinel's forward pointer is the
sentinel, which on a well-formed ring holds iff its backward pointer is
too; and after any valid operation sequence on an initially empty list it
is true iff the number of insertions equals the number of unlinks. -/
theorem claim7_is_empty (σ : Heap) (s : Nat) (ops : List Op)
    (h0 : (σ s).next = s ∧ (σ s).prev = s)
    (hv : validFrom s [] ops = true) :
    (Complete.list_empty (run s σ ops) s = true ↔ (run s σ ops s).next = s) ∧
    ((run s σ ops s).next = s ↔ (run s σ ops s).prev = s) ∧
    (Complete.list_empty (run s σ ops) s = true ↔
      countIns ops = countDel ops) := by
  have hr0 : represents σ s [] := ⟨by simp, (chain_nil σ s s).2 h0⟩
  have hrun := run_represents hr0 hv
  have hlen := absRun_length (l := []) hv
  have hbeq : Complete.list_empty (run s σ ops) s = true ↔
      (run s σ ops s).next = s := by
    rw [Complete.list_empty, beq_iff_eq]
  refine ⟨hbeq, ?_, ?_⟩
  · constructor
    · intro h
      have hemp : absRun [] ops = [] :=
        (represents_empty_iff hrun).1 (hbeq.2 h)
      exact (represents_prev_empty_iff hrun).2 hemp
    · intro h
      have hemp := (represents_prev_empty_iff hrun).1 h
      exact hbeq.1 ((represents_empty_iff hrun).2 hemp)
  · constructor
    · intro h
      have hemp := (represents_empty_iff hrun).1 h
      rw [hemp] at hlen
      simp only [List.length_nil, List.length] at hlen
      simp [countIns, countDel] at hlen ⊢
      omega
    · intro h
      have hlen0 : (absRun [] ops).length = 0 := by
        simp at hlen
        omega
      have hemp : absRun [] ops = [] := List.length_eq_zero.1 hlen0
      exact (represents_empty_iff hrun).2 hemp

theorem claim7_witness :
    ((selfHeap 1).next = 1 ∧ (selfHeap 1).prev = 1) ∧
    validFrom 1 [] [Op.insTail 2, Op.del 2] = true ∧
    ((Complete.list_empty (run 1 selfHeap [Op.insTail 2, Op.del 2]) 1 = true ↔
        (run 1 selfHeap [Op.insTail 2, Op.del 2] 1).next = 1) ∧
      ((run 1 selfHeap [Op.insTail 2, Op.del 2] 1).next = 1 ↔
        (run 1 selfHeap [Op.insTail 2, Op.del 2] 1).prev = 1) ∧
      (Complete.list_empty (run 1 selfHeap [Op.insTail 2, Op.del 2]) 1 = true ↔
        countIns [Op.insTail 2, Op.del 2] = countDel [Op.insTail 2, Op.del 2])) :=
  ⟨⟨rfl, rfl⟩, by decide,
    claim7_is_empty selfHeap 1 [Op.insTail 2, Op.del 2] ⟨rfl, rfl⟩ (by decide)⟩

/-- C8 fails as stated: in the test-kernel-complete.c variant `list_del`
does not reset the removed node, so after unlinking the only member of a
ring the node still points at the sentinel — its forward pointer is
neither itself (no self-loop) nor 0 (no poison mark). -/
theorem claim8_counterexample :
    (Complete.list_del exHeap 2 2).next = 1 ∧
    (Complete.list_del exHeap 2 2).prev = 1 ∧
    (Complete.list_del exHeap 2 2).next ≠ 2 ∧
    (Complete.list_del exHeap 2 2).next ≠ 0 := by
  decide

/-- C8 amended: in the complete variant the unlinked node keeps its stale
pointers (it is not detached), yet a second `list_del` of the same node
without intervening operations rewrites the same values and is a no-op on
the whole heap; in the full variant the node is NULL-poisoned and a second
`list_del` dereferences NULL instead of being a harmless no-op. -/
theorem claim8_unlink_behaviour (σ : Heap) (x : Nat)
    (hxp : x ≠ (σ x).prev) (hxn : x ≠ (σ x).next)
    (he : x ≠ 0) (hp : (σ x).prev ≠ 0) (hn : (σ x).next ≠ 0) :
    Complete.list_del σ x x = σ x ∧
    Complete.list_del (Complete.list_del σ x) x = Complete.list_del σ x ∧
    Full.list_del σ x = some (delResult σ x) ∧
    (delResult σ x x).next = 0 ∧ (delResult σ x x).prev = 0 ∧
    Full.list_del (delResult σ x) x = none := by
  refine ⟨list_del_preserves_entry σ x hxp hxn, list_del_idem σ x hxp hxn,
    full_list_del_eq he hp hn, ?_, ?_, full_list_del_poisoned_faults he⟩
  · rw [delResult_self]
  · rw [delResult_self]

theorem claim8_witness :
    ((2 : Nat) ≠ (exHeap 2).prev ∧ (2 : Nat) ≠ (exHeap 2).next ∧
      (2 : Nat) ≠ 0 ∧ (exHeap 2).prev ≠ 0 ∧ (exHeap 2).next ≠ 0) ∧
    (Complete.list_del exHeap 2 2 = exHeap 2 ∧
      Complete.list_del (Complete.list_del exHeap 2) 2 = Complete.list_del exHeap 2 ∧
      Full.list_del exHeap 2 = some (delResult exHeap 2) ∧
      (delResult exHeap 2 2).next = 0 ∧ (delResult exHeap 2 2).prev = 0 ∧
      Full.list_del (delResult exHeap 2) 2 = none) :=
  ⟨⟨by decide, by decide, by decide, by decide, by decide⟩,
    claim8_unlink_behaviour exHeap 2 (by decide) (by decide) (by decide)
      (by decide) (by decide)⟩

/-- C9: each ring operation of the complete variant is exactly a sequence
of two to four pointer-field stores — every link address outside the
stored-to set is untouched — and no operation reads or writes the
records' non-link payload. -/
theorem claim9_bounded_writes (σ : Heap) (s x e : Nat) (m : Mem) (op : Op) :
    (∃ ws : List Wr, Complete.INIT_LIST_HEAD σ s = applyWrites σ ws ∧
      2 ≤ ws.length ∧ ws.length ≤ 4 ∧
      ∀ a, (∀ w ∈ ws, w.addr ≠ a) → Complete.INIT_LIST_HEAD σ s a = σ a) ∧
    (∃ ws : List Wr, Complete.list_add σ x s = applyWrites σ ws ∧
      2 ≤ ws.length ∧ ws.length ≤ 4 ∧
      ∀ a, (∀ w ∈ ws, w.addr ≠ a) → Complete.list_add σ x s a = σ a) ∧
    (∃ ws : List Wr, Complete.list_add_tail σ x s = applyWrites σ ws ∧
      2 ≤ ws.length ∧ ws.length ≤ 4 ∧
      ∀ a, (∀ w ∈ ws, w.addr ≠ a) → Complete.list_add_tail σ x s a = σ a) ∧
    (∃ ws : List Wr, Complete.list_del σ e = applyWrites σ ws ∧
      2 ≤ ws.length ∧ ws.length ≤ 4 ∧
      ∀ a, (∀ w ∈ ws, w.addr ≠ a) → Complete.list_del σ e a = σ a) ∧
    (memApply s m op).payload = m.payload ∧
    (memInit s m).payload = m.payload := by
  refine ⟨⟨_, INIT_writes σ s, by norm_num, by norm_num, ?_⟩,
    ⟨_, list_add_writes σ x s, by norm_num, by norm_num, ?_⟩,
    ⟨_, list_add_tail_writes σ x s, by norm_num, by norm_num, ?_⟩,
    ⟨_, list_del_writes σ e, by norm_num, by norm_num, ?_⟩, rfl, rfl⟩
  · intro a ha
    rw [INIT_writes σ s]
    exact applyWrites_frame σ ha
  · intro a ha
    rw [list_add_writes σ x s]
    exact applyWrites_frame σ ha
  · intro a ha
    rw [list_add_tail_writes σ x s]
    exact applyWrites_frame σ ha
  · intro a ha
    rw [list_del_writes σ e]
    exact applyWrites_frame σ ha

/-- C10: on a linked node, the full variant's `list_del` sets both fields
of the removed node to the null pointer — a poisoned state distinct from
the self-loop detached state — so any subsequent forward or backward step
from the node is a null dereference. -/
theorem claim10_null_poisoning (σ : Heap) (entry : Nat)
    (he : entry ≠ 0) (hp : (σ entry).prev ≠ 0) (hn : (σ entry).next ≠ 0) :
    Full.list_del σ entry = some (delResult σ entry) ∧
    (delResult σ entry entry).next = 0 ∧
    (delResult σ entry entry).prev = 0 ∧
    (delResult σ entry entry).next ≠ entry ∧
    Full.deref (delResult σ entry) ((delResult σ entry entry).next) = none ∧
    Full.deref (delResult σ entry) ((delResult σ entry entry).prev) = none := by
  have hds := delResult_self σ entry
  refine ⟨full_list_del_eq he hp hn, by rw [hds], by rw [hds], ?_, ?_, ?_⟩
  · rw [hds]
    exact Ne.symm he
  · rw [hds]
    simp [Full.deref]
  · rw [hds]
    simp [Full.deref]

theorem claim10_witness :
    ((2 : Nat) ≠ 0 ∧ (exHeap3 2).prev ≠ 0 ∧ (exHeap3 2).next ≠ 0) ∧
    (Full.list_del exHeap3 2 = some (delResult exHeap3 2) ∧
      (delResult exHeap3 2 2).next = 0 ∧
      (delResult exHeap3 2 2).prev = 0 ∧
      (delResult exHeap3 2 2).next ≠ 2 ∧
      Full.deref (delResult exHeap3 2) ((delResult exHeap3 2 2).next) = none ∧
      Full.deref (delResult exHeap3 2) ((delResult exHeap3 2 2).prev) = none) :=
  ⟨⟨by decide, by decide, by decide⟩,
    claim10_null_poisoning exHeap3 2 (by decide) (by decide) (by decide)⟩

end Pcc
